import Mathlib

/-!
Shallow embedding of `automakereadme.py` (auto README generator) and proofs
of the spec's claims about it.

Strings of the Python program are modelled as lists of Unicode code points
(`Str := List Nat`), so that UTF-8 encoding, byte budgets and line splitting
can be stated exactly as the source computes them.
-/

/-- A Python string, modelled as its sequence of Unicode code points. -/
abbrev Str := List Nat

/-- Code-point list of a Lean string literal (used to write Python string
literals from the source). -/
def str (s : String) : Str := s.data.map Char.toNat

/-- Source constant `MAX_SNIPPET_BYTES = 20 * 1024` (line 38). -/
def MAX_SNIPPET_BYTES : Nat := 20 * 1024

/-- Source constant `MAX_TOTAL_BYTES = 40 * 1024` (line 39). -/
def MAX_TOTAL_BYTES : Nat := 40 * 1024

/-- Source constant `SNIPPET_LINE_LIMIT = 300` (line 40). -/
def SNIPPET_LINE_LIMIT : Nat := 300

/-- One entry of the GitHub tree listing, as consumed by
`select_relevant_files` (fields `path`, `type`, `sha` of the JSON dict). -/
structure TreeEntry where
  path : Str
  type : Str
  sha : Str
deriving DecidableEq

/-- The extension allow-list from line 86 of the source:
`path.endswith((".py", ".md", ".txt", ".json", ".yml", ".yaml", ".toml", ".ini", ".cfg"))`. -/
def RELEVANT_EXTS : List Str :=
  [str ".py", str ".md", str ".txt", str ".json", str ".yml", str ".yaml",
   str ".toml", str ".ini", str ".cfg"]

/-- Python `path.endswith(exts)` for a tuple of suffixes. -/
def endsWithAny (p : Str) (exts : List Str) : Bool :=
  exts.any (fun e => e.isSuffixOf p)

/-- Embedding of `select_relevant_files` (lines 76-93): keep blob entries whose
path ends in an allowed extension; if none matched, fall back to all blob
entries; finally truncate to the first 50. -/
def select_relevant_files (tree : List TreeEntry) : List TreeEntry :=
  let picked := tree.filter
    (fun item => item.type == str "blob" && endsWithAny item.path RELEVANT_EXTS)
  let picked2 := if picked.isEmpty
    then tree.filter (fun t => t.type == str "blob")
    else picked
  picked2.take 50

lemma mem_select_blob {tree : List TreeEntry} {x : TreeEntry}
    (hx : x ∈ select_relevant_files tree) : x ∈ tree ∧ x.type = str "blob" := by
  unfold select_relevant_files at hx
  simp only at hx
  have hx' := List.take_subset _ _ hx
  split at hx'
  · rcases List.mem_filter.mp hx' with ⟨hmem, hq⟩
    exact ⟨hmem, by simpa using hq⟩
  · rcases List.mem_filter.mp hx' with ⟨hmem, hq⟩
    simp only [Bool.and_eq_true, beq_iff_eq] at hq
    exact ⟨hmem, hq.1⟩

lemma select_of_all_blob_ext {l : List TreeEntry}
    (hall : ∀ x ∈ l, x.type = str "blob" ∧ endsWithAny x.path RELEVANT_EXTS = true)
    (hlen : l.length ≤ 50) (hne : l ≠ []) :
    select_relevant_files l = l := by
  unfold select_relevant_files
  have hfil : l.filter
      (fun item => item.type == str "blob" && endsWithAny item.path RELEVANT_EXTS) = l := by
    apply List.filter_eq_self.mpr
    intro a ha
    rcases hall a ha with ⟨h1, h2⟩
    simp [h1, h2]
  simp only [hfil]
  rw [if_neg (by simpa [List.isEmpty_iff] using hne)]
  exact List.take_of_length_le hlen

lemma select_of_all_blob_noext {l : List TreeEntry}
    (hall : ∀ x ∈ l, x.type = str "blob" ∧ endsWithAny x.path RELEVANT_EXTS = false)
    (hlen : l.length ≤ 50) :
    select_relevant_files l = l := by
  unfold select_relevant_files
  have hfil : l.filter
      (fun item => item.type == str "blob" && endsWithAny item.path RELEVANT_EXTS) = [] := by
    apply List.filter_eq_nil_iff.mpr
    intro a ha
    rcases hall a ha with ⟨h1, h2⟩
    simp [h1, h2]
  have hfil2 : l.filter (fun t => t.type == str "blob") = l := by
    apply List.filter_eq_self.mpr
    intro a ha
    simp [(hall a ha).1]
  simp only [hfil, hfil2, List.isEmpty_nil, if_pos]
  exact List.take_of_length_le hlen

/-- C3: file selection is idempotent, order-preserving (its result is a
sublist of the input, hence keeps the original relative order), and returns
at most 50 entries. -/
theorem select_relevant_files_idempotent_ordered_capped (tree : List TreeEntry) :
    select_relevant_files (select_relevant_files tree) = select_relevant_files tree ∧
    (select_relevant_files tree).Sublist tree ∧
    (select_relevant_files tree).length ≤ 50 := by
  have hsub : (select_relevant_files tree).Sublist tree := by
    unfold select_relevant_files
    simp only
    split <;> exact (List.take_sublist _ _).trans (List.filter_sublist _)
  have hlen : (select_relevant_files tree).length ≤ 50 := by
    unfold select_relevant_files
    simp only [List.length_take]
    exact Nat.min_le_left _ _
  refine ⟨?_, hsub, hlen⟩
  by_cases hemp : tree.filter
      (fun item => item.type == str "blob" && endsWithAny item.path RELEVANT_EXTS) = []
  · -- fallback branch was taken: the selected entries are blobs with no
    -- matching extension, so re-selection again falls back and returns them all
    apply select_of_all_blob_noext _ hlen
    intro x hx
    rcases mem_select_blob hx with ⟨hmem, hblob⟩
    refine ⟨hblob, ?_⟩
    by_contra hne
    have hext : endsWithAny x.path RELEVANT_EXTS = true := by
      cases h : endsWithAny x.path RELEVANT_EXTS
      · exact absurd h hne
      · rfl
    have : x ∈ tree.filter
        (fun item => item.type == str "blob" && endsWithAny item.path RELEVANT_EXTS) := by
      exact List.mem_filter.mpr ⟨hmem, by simp [hblob, hext]⟩
    rw [hemp] at this
    exact absurd this (List.not_mem_nil x)
  · -- extension branch was taken: every selected entry still matches,
    -- so re-selection filters to the same list
    have hsel : select_relevant_files tree = (tree.filter
        (fun item => item.type == str "blob" && endsWithAny item.path RELEVANT_EXTS)).take 50 := by
      unfold select_relevant_files
      simp only
      rw [if_neg (by simpa [List.isEmpty_iff] using hemp)]
    by_cases hnil : select_relevant_files tree = []
    · rw [hnil]
      rfl
    · apply select_of_all_blob_ext _ hlen hnil
      intro x hx
      have hx' : x ∈ (tree.filter
          (fun item => item.type == str "blob" && endsWithAny item.path RELEVANT_EXTS)) := by
        rw [hsel] at hx
        exact List.take_subset _ _ hx
      have := (List.mem_filter.mp hx').2
      simp only [Bool.and_eq_true, beq_iff_eq] at this
      exact this

/-- C4: when no blob entry has an allowed extension, selection returns all
blob entries (ignoring extension), capped at the first 50 in tree order. -/
theorem select_relevant_files_fallback (tree : List TreeEntry)
    (h : ∀ e ∈ tree, e.type = str "blob" → endsWithAny e.path RELEVANT_EXTS = false) :
    select_relevant_files tree = (tree.filter (fun t => t.type == str "blob")).take 50 := by
  unfold select_relevant_files
  have hfil : tree.filter
      (fun item => item.type == str "blob" && endsWithAny item.path RELEVANT_EXTS) = [] := by
    apply List.filter_eq_nil_iff.mpr
    intro a ha
    by_cases hb : a.type = str "blob"
    · simp [hb, h a ha hb]
    · simp [hb]
  simp [hfil]

/-- Demo tree for the C4 witness: three blobs, none with an allowed extension. -/
def demoTree : List TreeEntry :=
  [⟨str "main.c", str "blob", str "s1"⟩,
   ⟨str "Makefile", str "blob", str "s2"⟩,
   ⟨str "src", str "tree", str "s3"⟩]

/-- Witness for C4 at a concrete tree with no allow-listed extensions. -/
theorem select_relevant_files_fallback_witness :
    (∀ e ∈ demoTree, e.type = str "blob" → endsWithAny e.path RELEVANT_EXTS = false) ∧
    select_relevant_files demoTree =
      (demoTree.filter (fun t => t.type == str "blob")).take 50 :=
  ⟨by decide, select_relevant_files_fallback demoTree (by decide)⟩

/-- Python `s.strip(c)` for a single strip character: drop the character from
both ends of the string. -/
def stripChar (sep : Nat) (s : Str) : Str :=
  ((s.dropWhile (· = sep)).reverse.dropWhile (· = sep)).reverse

/-- Python `s.split(c)` for a single-character separator: split on every
occurrence, keeping empty pieces; the empty string splits to `[""]`. -/
def pySplitChar (sep : Nat) : Str → List Str
  | [] => [[]]
  | c :: rest =>
    if c = sep then [] :: pySplitChar sep rest
    else
      match pySplitChar sep rest with
      | s :: ss => (c :: s) :: ss
      | [] => [[c]]

/-- Recursion core of `pyReplace`, structurally recursive on a fuel bound so
that it evaluates in the kernel; with `fuel ≥ s.length` the fuel never runs
out, since each step consumes at least one character of `s`. -/
def pyReplaceGo (old new : Str) : Nat → Str → Str
  | _, [] => []
  | 0, s => s
  | fuel + 1, c :: rest =>
    if old.isPrefixOf (c :: rest) && !old.isEmpty then
      new ++ pyReplaceGo old new fuel (rest.drop (old.length - 1))
    else
      c :: pyReplaceGo old new fuel rest

/-- Python `s.replace(old, new)` for nonempty `old`: replace every
leftmost non-overlapping occurrence of `old` by `new`, scanning left to
right (the source calls it as `parts[1].replace(".git", "")`). -/
def pyReplace (old new : Str) (s : Str) : Str := pyReplaceGo old new s.length s

deriving instance DecidableEq for Except

/-- The `(owner, repo, branch)` triple returned by `parse_github_url`. -/
structure RepoRef where
  owner : Str
  repo : Str
  branch : Str
deriving DecidableEq

/-- Embedding of `parse_github_url` (lines 43-53), taking the URL's path
component (the result of `urlparse(url).path`): split the stripped path on
`/`; fewer than 2 segments is an error; owner is the first segment, repo is
the second with every `".git"` occurrence replaced by `""`; branch is the
fourth segment when there are at least 4 segments and the third is `"tree"`,
else `"main"`. -/
def parse_github_url (path : Str) : Except Str RepoRef :=
  match pySplitChar 47 (stripChar 47 path) with
  | p0 :: p1 :: rest =>
    let owner := p0
    let repo := pyReplace (str ".git") [] p1
    let branch :=
      match rest with
      | t :: b :: _ => if t = str "tree" then b else str "main"
      | _ => str "main"
    .ok ⟨owner, repo, branch⟩
  | _ => .error (str "Invalid GitHub repo URL")

/-- Modelled from the spec's words for comparison in C5: "the second segment
with a trailing `.git` suffix stripped". -/
def specStripTrailingGit (s : Str) : Str :=
  if (str ".git").isSuffixOf s then s.take (s.length - 4) else s

/-- Counterexample to C5 as stated: on path `o/a.gitb` the code removes the
inner `.git` (Python `replace` removes every occurrence), yielding repo
`ab`, not the trailing-suffix-stripped `a.gitb` the claim predicts. -/
theorem parse_github_url_not_trailing_strip :
    parse_github_url (str "o/a.gitb") =
      Except.ok ⟨str "o", str "ab", str "main"⟩ ∧
    specStripTrailingGit (str "a.gitb") = str "a.gitb" ∧
    ¬ (parse_github_url (str "o/a.gitb") =
      Except.ok ⟨str "o", specStripTrailingGit (str "a.gitb"), str "main"⟩) := by
  refine ⟨by decide, by decide, ?_⟩
  decide

/-- C5 (amended): for every path with at least 2 segments, the parser yields
the first segment as owner, the second segment with every occurrence of
`.git` removed (leftmost-first, non-overlapping) as repo, and the fourth
segment as branch when there are at least 4 segments and the third equals
`tree`, otherwise `main`. -/
theorem parse_github_url_segments (path : Str)
    (parts : List Str)
    (hparts : pySplitChar 47 (stripChar 47 path) = parts)
    (hlen : 2 ≤ parts.length) :
    parse_github_url path = Except.ok
      { owner := parts.getD 0 []
        repo := pyReplace (str ".git") [] (parts.getD 1 [])
        branch := if 4 ≤ parts.length ∧ parts.getD 2 [] = str "tree"
          then parts.getD 3 [] else str "main" } := by
  match parts, hlen with
  | p0 :: p1 :: rest, _ =>
    unfold parse_github_url
    rw [hparts]
    simp only [List.getD, List.getD_cons_zero, List.getD_cons_succ]
    match rest with
    | [] => simp
    | [t] => simp
    | t :: b :: rest' =>
      by_cases ht : t = str "tree"
      · simp [ht]
      · simp [ht]

/-- Witness for C5 (amended) at the concrete path `acme/widgets/tree/dev`. -/
theorem parse_github_url_segments_witness :
    (2 ≤ ([str "acme", str "widgets", str "tree", str "dev"] : List Str).length) ∧
    parse_github_url (str "acme/widgets/tree/dev") = Except.ok
      { owner := ([str "acme", str "widgets", str "tree", str "dev"] : List Str).getD 0 []
        repo := pyReplace (str ".git") []
          (([str "acme", str "widgets", str "tree", str "dev"] : List Str).getD 1 [])
        branch := if 4 ≤ ([str "acme", str "widgets", str "tree", str "dev"] : List Str).length ∧
            ([str "acme", str "widgets", str "tree", str "dev"] : List Str).getD 2 [] = str "tree"
          then ([str "acme", str "widgets", str "tree", str "dev"] : List Str).getD 3 []
          else str "main" } :=
  ⟨by decide, parse_github_url_segments (str "acme/widgets/tree/dev")
    [str "acme", str "widgets", str "tree", str "dev"] (by decide) (by decide)⟩

/-- C6: a path with fewer than 2 segments makes the parser fail with the
invalid-URL error instead of returning a RepoRef. -/
theorem parse_github_url_too_few_segments (path : Str)
    (hlen : (pySplitChar 47 (stripChar 47 path)).length < 2) :
    parse_github_url path = Except.error (str "Invalid GitHub repo URL") := by
  unfold parse_github_url
  match hp : pySplitChar 47 (stripChar 47 path) with
  | [] => rfl
  | [p0] => rfl
  | p0 :: p1 :: rest =>
    rw [hp] at hlen
    simp only [List.length_cons] at hlen
    omega

/-- Witness for C6 at the concrete path `onlyowner`. -/
theorem parse_github_url_too_few_segments_witness :
    ((pySplitChar 47 (stripChar 47 (str "onlyowner"))).length < 2) ∧
    parse_github_url (str "onlyowner") = Except.error (str "Invalid GitHub repo URL") :=
  ⟨by decide, parse_github_url_too_few_segments (str "onlyowner") (by decide)⟩

/-- C9: a path of exactly 3 segments whose third segment is `tree` does not
make the parser fail: it returns owner and repo and defaults the branch to
`main`, because the tree branch is only taken with at least 4 segments. -/
theorem parse_github_url_tree_without_branch (path : Str) (o r : Str)
    (hparts : pySplitChar 47 (stripChar 47 path) = [o, r, str "tree"]) :
    parse_github_url path =
      Except.ok ⟨o, pyReplace (str ".git") [] r, str "main"⟩ := by
  unfold parse_github_url
  rw [hparts]

/-- Witness for C9 at the concrete path `acme/widgets/tree`. -/
theorem parse_github_url_tree_without_branch_witness :
    (pySplitChar 47 (stripChar 47 (str "acme/widgets/tree")) =
      [str "acme", str "widgets", str "tree"]) ∧
    parse_github_url (str "acme/widgets/tree") =
      Except.ok ⟨str "acme", pyReplace (str ".git") [] (str "widgets"), str "main"⟩ :=
  ⟨by decide, parse_github_url_tree_without_branch (str "acme/widgets/tree")
    (str "acme") (str "widgets") (by decide)⟩

/-- UTF-8 encoding of one Unicode code point as a byte sequence (the byte
layout used by Python's `str.encode("utf-8")`). -/
def utf8EncodeChar (c : Nat) : List Nat :=
  if c < 0x80 then [c]
  else if c < 0x800 then [0xC0 + c / 64, 0x80 + c % 64]
  else if c < 0x10000 then [0xE0 + c / 4096, 0x80 + c / 64 % 64, 0x80 + c % 64]
  else [0xF0 + c / 262144, 0x80 + c / 4096 % 64, 0x80 + c / 64 % 64, 0x80 + c % 64]

/-- Python `s.encode("utf-8")`: the concatenated UTF-8 bytes of a string. -/
def encodeUtf8 (s : Str) : List Nat := (s.map utf8EncodeChar).join

/-- Python `len(s.encode("utf-8"))`: the UTF-8 byte length of a string. -/
def utf8Len (s : Str) : Nat := (encodeUtf8 s).length

/-- The line-boundary code points recognized by Python `str.splitlines`:
LF, CR, VT, FF, FS, GS, RS, NEL, LINE SEPARATOR, PARAGRAPH SEPARATOR. -/
def isLineBreak (c : Nat) : Bool :=
  c == 10 || c == 13 || c == 11 || c == 12 || c == 28 || c == 29 || c == 30 ||
  c == 133 || c == 8232 || c == 8233

/-- Accumulator worker for `splitlinesPy`: `acc` holds the current line in
reverse and `afterCR` records whether the previous character was a CR whose
following LF must be absorbed (so CR LF counts as a single boundary); a
final unterminated nonempty line is emitted, a trailing boundary adds no
empty line. -/
def splitlinesAux : List Nat → List Nat → Bool → List Str
  | [], acc, _ => if acc.isEmpty then [] else [acc.reverse]
  | c :: rest, acc, afterCR =>
    if afterCR = true ∧ c = 10 then splitlinesAux rest acc false
    else if c = 13 then acc.reverse :: splitlinesAux rest [] true
    else if isLineBreak c then acc.reverse :: splitlinesAux rest [] false
    else splitlinesAux rest (c :: acc) false

/-- Python `s.splitlines()`. -/
def splitlinesPy (s : Str) : List Str := splitlinesAux s [] false

/-- Python `"\n".join(lines)`. -/
def joinNL : List Str → Str
  | [] => []
  | [l] => l
  | l :: l2 :: ls => l ++ 10 :: joinNL (l2 :: ls)

/-- Decimal rendering of a number, as Python's `str`/f-string formatting. -/
def natToStr (n : Nat) : Str := str (toString n)

/-- One manifest line of `build_prompt` (line 128 of the source):
`f"- {p} : {len(s.splitlines())} lines\n"`. -/
def manifestLine (ps : Str × Str) : Str :=
  str "- " ++ ps.1 ++ str " : " ++ natToStr (splitlinesPy ps.2).length ++ str " lines\n"

/-- The `files_list` section of `build_prompt` (lines 126-129). -/
def filesListSection (files_snippets : List (Str × Str)) : Str :=
  str "Files included:\n" ++ (files_snippets.map manifestLine).join ++ str "\n"

/-- One per-file snippet block of `build_prompt` (line 139):
`f"---\nFile: {path}\n...{snippet}\n...\n"` with code fences around the
snippet body. -/
def snippetBlock (ps : Str × Str) : Str :=
  str "---\nFile: " ++ ps.1 ++ str "\n```\n" ++ ps.2 ++ str "\n```\n"

/-- The byte-budgeted snippet loop of `build_prompt` (lines 131-140): skip
zero-size snippets, stop at the first snippet whose size would push the
running total past `MAX_TOTAL_BYTES`, otherwise append its block and add its
size to the total. -/
def snippetsLoop : List (Str × Str) → Nat → Str
  | [], _ => []
  | (path, snippet) :: rest, total_bytes =>
    let size := utf8Len snippet
    if size = 0 then snippetsLoop rest total_bytes
    else if MAX_TOTAL_BYTES < total_bytes + size then []
    else snippetBlock (path, snippet) ++ snippetsLoop rest (total_bytes + size)

/-- The same traversal as `snippetsLoop`, recording which files' blocks are
appended instead of the concatenated text (the loop instrumented with its
inclusion decisions). -/
def includedSnippets : List (Str × Str) → Nat → List (Str × Str)
  | [], _ => []
  | (path, snippet) :: rest, total_bytes =>
    let size := utf8Len snippet
    if size = 0 then includedSnippets rest total_bytes
    else if MAX_TOTAL_BYTES < total_bytes + size then []
    else (path, snippet) :: includedSnippets rest (total_bytes + size)

/-- Total UTF-8 byte size of the snippets of a file list. -/
def sumSnippetBytes (fs : List (Str × Str)) : Nat :=
  (fs.map (fun ps => utf8Len ps.2)).sum

/-- The fixed instructional preamble of `build_prompt` (lines 119-124). -/
def PROMPT_INTRO : Str :=
  str "You are an expert developer & technical writer. Analyze this repository deeply and write a precise README. Do NOT wrap output in ```markdown or triple backticks. Output clean GitHub-flavored Markdown (GFM) only.\n"

/-- The fixed instruction suffix of `build_prompt` (lines 142-151). -/
def PROMPT_INSTRUCTIONS : Str :=
  str "\nWrite a concise README with:\n- Short project description\n- Key features (bullet points)\n- Installation steps\n- Usage examples\n- Tech stack and dependencies\n- 3 suggestions for improvements\nKeep it 300-800 words and use Markdown.\n"

/-- The repository metadata block of `build_prompt` (line 125). -/
def metaSection (owner repo branch repo_url : Str) : Str :=
  str "\nRepository: " ++ owner ++ str "/" ++ repo ++ str "\nURL: " ++ repo_url ++
  str "\nBranch: " ++ branch ++ str "\n\n"

/-- Embedding of `build_prompt` (lines 117-153): intro, metadata, manifest,
byte-budgeted snippet blocks, instruction suffix, concatenated in order. -/
def build_prompt (owner repo branch : Str) (files_snippets : List (Str × Str))
    (repo_url : Str) : Str :=
  PROMPT_INTRO ++ metaSection owner repo branch repo_url ++
  filesListSection files_snippets ++ snippetsLoop files_snippets 0 ++
  PROMPT_INSTRUCTIONS

lemma sumSnippetBytes_cons (p s : Str) (l : List (Str × Str)) :
    sumSnippetBytes ((p, s) :: l) = utf8Len s + sumSnippetBytes l := by
  simp [sumSnippetBytes]

lemma includedSnippets_budget (fs : List (Str × Str)) (t : Nat)
    (ht : t ≤ MAX_TOTAL_BYTES) :
    t + sumSnippetBytes (includedSnippets fs t) ≤ MAX_TOTAL_BYTES := by
  induction fs generalizing t with
  | nil => simpa [includedSnippets, sumSnippetBytes]
  | cons ps rest ih =>
    obtain ⟨p, s⟩ := ps
    simp only [includedSnippets]
    by_cases h0 : utf8Len s = 0
    · simpa [h0] using ih t ht
    · rw [if_neg h0]
      by_cases hover : MAX_TOTAL_BYTES < t + utf8Len s
      · simpa [hover, sumSnippetBytes] using ht
      · rw [if_neg hover]
        have := ih (t + utf8Len s) (Nat.le_of_not_lt hover)
        rw [sumSnippetBytes_cons]
        omega


lemma includedSnippets_isPrefix (fs : List (Str × Str)) (t : Nat) :
    (includedSnippets fs t) <+: fs.filter (fun ps => utf8Len ps.2 != 0) := by
  induction fs generalizing t with
  | nil => simp [includedSnippets]
  | cons ps rest ih =>
    obtain ⟨p, s⟩ := ps
    simp only [includedSnippets, List.filter_cons]
    by_cases h0 : utf8Len s = 0
    · simpa [h0] using ih t
    · rw [if_neg h0]
      have hb : (((fun ps : Str × Str => utf8Len ps.2 != 0) (p, s)) = true) := by
        simpa using h0
      rw [if_pos hb]
      by_cases hover : MAX_TOTAL_BYTES < t + utf8Len s
      · rw [if_pos hover]
        exact List.nil_prefix
      · rw [if_neg hover]
        obtain ⟨tail, htail⟩ := ih (t + utf8Len s)
        exact ⟨tail, by rw [List.cons_append, htail]⟩

lemma snippetsLoop_eq_blocks (fs : List (Str × Str)) (t : Nat) :
    snippetsLoop fs t = ((includedSnippets fs t).map snippetBlock).join := by
  induction fs generalizing t with
  | nil => simp [snippetsLoop, includedSnippets]
  | cons ps rest ih =>
    obtain ⟨p, s⟩ := ps
    simp only [snippetsLoop, includedSnippets]
    by_cases h0 : utf8Len s = 0
    · simpa [h0] using ih t
    · rw [if_neg h0, if_neg h0]
      by_cases hover : MAX_TOTAL_BYTES < t + utf8Len s
      · simp [hover]
      · rw [if_neg hover, if_neg hover]
        simp [ih (t + utf8Len s)]

/-- C1: in `build_prompt`'s snippet loop started at byte total 0, the sum of
the UTF-8 byte sizes of the included snippets never exceeds 40960; the
included files form a prefix of the nonempty-snippet files in manifest
order, so once one snippet is omitted for crossing the budget every later
snippet is omitted too; and the snippet section of the prompt is exactly
the concatenated blocks of those included files. -/
theorem build_prompt_byte_budget (fs : List (Str × Str)) :
    sumSnippetBytes (includedSnippets fs 0) ≤ 40960 ∧
    (includedSnippets fs 0) <+: fs.filter (fun ps => utf8Len ps.2 != 0) ∧
    snippetsLoop fs 0 = ((includedSnippets fs 0).map snippetBlock).join := by
  refine ⟨?_, includedSnippets_isPrefix fs 0, snippetsLoop_eq_blocks fs 0⟩
  have := includedSnippets_budget fs 0 (by simp [MAX_TOTAL_BYTES])
  simpa [MAX_TOTAL_BYTES] using this

/-- C7: a file with an empty snippet still contributes its manifest line
(with line count 0, computed from the snippet) to the file list section,
but contributes no block and no bytes: deleting it from the mapping leaves
the inclusion decisions, the snippet section, and hence the rest of the
prompt unchanged. -/
theorem build_prompt_empty_snippet (pre post : List (Str × Str)) (p : Str) :
    filesListSection (pre ++ (p, ([] : Str)) :: post) =
      str "Files included:\n" ++
        ((pre.map manifestLine).join ++
          (manifestLine (p, ([] : Str)) ++ (post.map manifestLine).join)) ++
        str "\n" ∧
    manifestLine (p, ([] : Str)) =
      str "- " ++ p ++ str " : " ++ natToStr 0 ++ str " lines\n" ∧
    (∀ t, includedSnippets (pre ++ (p, ([] : Str)) :: post) t =
      includedSnippets (pre ++ post) t) ∧
    (∀ t, snippetsLoop (pre ++ (p, ([] : Str)) :: post) t =
      snippetsLoop (pre ++ post) t) ∧
    (∀ o r b u, build_prompt o r b (pre ++ (p, ([] : Str)) :: post) u =
      PROMPT_INTRO ++ metaSection o r b u ++
      filesListSection (pre ++ (p, ([] : Str)) :: post) ++
      snippetsLoop (pre ++ post) 0 ++ PROMPT_INSTRUCTIONS) := by
  have hinc : ∀ t, includedSnippets (pre ++ (p, ([] : Str)) :: post) t =
      includedSnippets (pre ++ post) t := by
    intro t
    induction pre generalizing t with
    | nil =>
      simp only [List.nil_append, includedSnippets]
      rw [if_pos]
      rfl
    | cons ps rest ih =>
      obtain ⟨q, s⟩ := ps
      simp only [List.cons_append, includedSnippets]
      by_cases h0 : utf8Len s = 0
      · simpa [h0] using ih t
      · rw [if_neg h0, if_neg h0]
        by_cases hover : MAX_TOTAL_BYTES < t + utf8Len s
        · simp [hover]
        · rw [if_neg hover, if_neg hover]
          exact congrArg (List.cons (q, s)) (ih (t + utf8Len s))
  have hloop : ∀ t, snippetsLoop (pre ++ (p, ([] : Str)) :: post) t =
      snippetsLoop (pre ++ post) t := by
    intro t
    rw [snippetsLoop_eq_blocks, snippetsLoop_eq_blocks, hinc t]
  refine ⟨?_, ?_, hinc, hloop, ?_⟩
  · simp [filesListSection]
  · simp [manifestLine, splitlinesPy, splitlinesAux]
  · intro o r b u
    rw [build_prompt, hloop 0]

/-- Whether a byte is a UTF-8 continuation byte (`0x80..0xBF`). -/
def isCont (b : Nat) : Bool := 0x80 ≤ b && b ≤ 0xBF

/-- Valid ranges of the first continuation byte of a 3-byte UTF-8 sequence:
lead `0xE0` forbids overlong encodings, lead `0xED` forbids surrogates. -/
def cont3ok (b b1 : Nat) : Bool :=
  if b = 0xE0 then 0xA0 ≤ b1 && b1 ≤ 0xBF
  else if b = 0xED then 0x80 ≤ b1 && b1 ≤ 0x9F
  else isCont b1

/-- Valid ranges of the first continuation byte of a 4-byte UTF-8 sequence:
lead `0xF0` forbids overlong encodings, lead `0xF4` caps at `U+10FFFF`. -/
def cont4ok (b b1 : Nat) : Bool :=
  if b = 0xF0 then 0x90 ≤ b1 && b1 ≤ 0xBF
  else if b = 0xF4 then 0x80 ≤ b1 && b1 ≤ 0x8F
  else isCont b1

/-- One step of strict UTF-8 decoding: given the first byte `b` and the
remaining bytes, return the decoded code point (or `none` when `b` starts an
invalid or truncated sequence, whose lead byte is then dropped) and the
bytes left to decode. -/
def utf8DecodeStep (b : Nat) (rest : List Nat) : Option Nat × List Nat :=
  if b < 0x80 then (some b, rest)
  else if b < 0xC2 then (none, rest)
  else if b < 0xE0 then
    match rest with
    | b1 :: rest1 =>
      if isCont b1 then (some ((b - 0xC0) * 64 + (b1 - 0x80)), rest1)
      else (none, rest)
    | [] => (none, [])
  else if b < 0xF0 then
    match rest with
    | b1 :: b2 :: rest2 =>
      if cont3ok b b1 && isCont b2 then
        (some ((b - 0xE0) * 4096 + (b1 - 0x80) * 64 + (b2 - 0x80)), rest2)
      else (none, rest)
    | _ => (none, rest)
  else if b < 0xF5 then
    match rest with
    | b1 :: b2 :: b3 :: rest3 =>
      if cont4ok b b1 && isCont b2 && isCont b3 then
        (some ((b - 0xF0) * 262144 + (b1 - 0x80) * 4096 + (b2 - 0x80) * 64 + (b3 - 0x80)),
          rest3)
      else (none, rest)
    | _ => (none, rest)
  else (none, rest)

/-- Driver of the UTF-8 decoder, structurally recursive on a fuel bound;
every step consumes at least the lead byte, so fuel equal to the byte count
never runs out. -/
def decodeUtf8Go : Nat → List Nat → Str
  | _, [] => []
  | 0, _ => []
  | fuel + 1, b :: rest =>
    (match (utf8DecodeStep b rest).1 with
      | some c => [c]
      | none => []) ++ decodeUtf8Go fuel (utf8DecodeStep b rest).2

/-- Python `bytes.decode("utf-8", errors="ignore")`: strict UTF-8 decoding
that silently drops the bytes of every invalid or truncated sequence and
continues at the next byte. -/
def decodeUtf8Ignore (bs : List Nat) : Str := decodeUtf8Go bs.length bs

/-- The truncation of `fetch_file_snippet` (lines 109-114): keep the first
300 lines, rejoin with newlines, and if the result exceeds 20480 UTF-8
bytes, cut the byte sequence at 20480 and decode it leniently. -/
def trimContent (content : Str) : Str :=
  let lines := (splitlinesPy content).take SNIPPET_LINE_LIMIT
  let snippet := joinNL lines
  if MAX_SNIPPET_BYTES < utf8Len snippet then
    decodeUtf8Ignore ((encodeUtf8 snippet).take MAX_SNIPPET_BYTES)
  else snippet

/-- A Unicode scalar value: a code point outside the surrogate range. In
CPython these are exactly the code points a `str` obtained from decoding
bytes can contain, hence the only ones `str.encode("utf-8")` accepts. -/
def ValidScalar (c : Nat) : Prop := c < 0x110000 ∧ ¬(0xD800 ≤ c ∧ c < 0xE000)

instance (c : Nat) : Decidable (ValidScalar c) := by
  unfold ValidScalar
  infer_instance

lemma utf8Len_nil : utf8Len [] = 0 := rfl

lemma utf8Len_cons (c : Nat) (s : Str) :
    utf8Len (c :: s) = (utf8EncodeChar c).length + utf8Len s := by
  simp [utf8Len, encodeUtf8]

lemma utf8Len_append (s t : Str) : utf8Len (s ++ t) = utf8Len s + utf8Len t := by
  simp [utf8Len, encodeUtf8]

lemma encodeUtf8_cons (c : Nat) (s : Str) :
    encodeUtf8 (c :: s) = utf8EncodeChar c ++ encodeUtf8 s := by
  simp [encodeUtf8]

lemma utf8EncodeChar_length_le_four (c : Nat) : (utf8EncodeChar c).length ≤ 4 := by
  unfold utf8EncodeChar
  split_ifs <;> simp

lemma utf8EncodeChar_length_le_three (c : Nat) (h : c < 0x10000) :
    (utf8EncodeChar c).length ≤ 3 := by
  unfold utf8EncodeChar
  split_ifs with h1 h2 h3 <;> first | simp | omega

lemma utf8EncodeChar_length_le_two (c : Nat) (h : c < 0x800) :
    (utf8EncodeChar c).length ≤ 2 := by
  unfold utf8EncodeChar
  split_ifs with h1 h2 <;> first | simp | omega

lemma utf8EncodeChar_length_one (c : Nat) (h : c < 0x80) :
    (utf8EncodeChar c).length = 1 := by
  unfold utf8EncodeChar
  rw [if_pos h]
  rfl

lemma utf8EncodeChar_length_pos (c : Nat) : 1 ≤ (utf8EncodeChar c).length := by
  unfold utf8EncodeChar
  split_ifs <;> simp

lemma isCont_bounds {b : Nat} (h : isCont b = true) : 0x80 ≤ b ∧ b ≤ 0xBF := by
  simpa [isCont, Bool.and_eq_true, decide_eq_true_eq] using h

lemma cont3ok_bounds {b b1 : Nat} (h : cont3ok b b1 = true) : 0x80 ≤ b1 ∧ b1 ≤ 0xBF := by
  unfold cont3ok at h
  split_ifs at h <;>
    simp only [isCont, Bool.and_eq_true, decide_eq_true_eq] at h <;> omega

lemma cont4ok_bounds {b b1 : Nat} (h : cont4ok b b1 = true) : 0x80 ≤ b1 ∧ b1 ≤ 0xBF := by
  unfold cont4ok at h
  split_ifs at h <;>
    simp only [isCont, Bool.and_eq_true, decide_eq_true_eq] at h <;> omega

lemma utf8DecodeStep_none_length {b : Nat} {rest rest' : List Nat}
    (h : utf8DecodeStep b rest = (none, rest')) : rest'.length ≤ rest.length := by
  match rest with
  | [] =>
    simp only [utf8DecodeStep] at h
    split_ifs at h <;> simp_all
  | [b1] =>
    simp only [utf8DecodeStep] at h
    split_ifs at h <;> simp_all
  | [b1, b2] =>
    simp only [utf8DecodeStep] at h
    split_ifs at h <;> simp_all
  | b1 :: b2 :: b3 :: rest3 =>
    simp only [utf8DecodeStep] at h
    split_ifs at h <;> simp_all

lemma utf8EncodeChar_length_two_byte {b b1 : Nat} (h2 : 0xC2 ≤ b) (h3 : b < 0xE0)
    (hc : isCont b1 = true) :
    (utf8EncodeChar ((b - 0xC0) * 64 + (b1 - 0x80))).length ≤ 2 := by
  have hb1 := isCont_bounds hc
  exact utf8EncodeChar_length_le_two _ (by omega)

lemma utf8EncodeChar_length_three_byte {b b1 b2 : Nat} (h2 : 0xE0 ≤ b) (h3 : b < 0xF0)
    (hc : cont3ok b b1 = true) (hc2 : isCont b2 = true) :
    (utf8EncodeChar ((b - 0xE0) * 4096 + (b1 - 0x80) * 64 + (b2 - 0x80))).length ≤ 3 := by
  have hb1 := cont3ok_bounds hc
  have hb2 := isCont_bounds hc2
  exact utf8EncodeChar_length_le_three _ (by omega)

lemma utf8DecodeStep_some_length {b : Nat} {rest rest' : List Nat} {c : Nat}
    (h : utf8DecodeStep b rest = (some c, rest')) :
    (utf8EncodeChar c).length + rest'.length ≤ 1 + rest.length := by
  match rest with
  | [] =>
    simp only [utf8DecodeStep] at h
    split_ifs at h with h1 h2 h3 h4 h5
    · simp only [Prod.mk.injEq, Option.some.injEq] at h
      obtain ⟨rfl, rfl⟩ := h
      simp [utf8EncodeChar_length_one b h1]
    all_goals simp at h
  | [b1] =>
    simp only [utf8DecodeStep] at h
    split_ifs at h with h1 h2 h3 hc h4 h5
    · simp only [Prod.mk.injEq, Option.some.injEq] at h
      obtain ⟨rfl, rfl⟩ := h
      simp [utf8EncodeChar_length_one b h1]
    · simp at h
    · simp only [Prod.mk.injEq, Option.some.injEq] at h
      obtain ⟨rfl, rfl⟩ := h
      have := utf8EncodeChar_length_two_byte (by omega) h3 hc
      simp only [List.length_cons, List.length_nil]
      omega
    all_goals simp at h
  | [b1, b2] =>
    simp only [utf8DecodeStep] at h
    split_ifs at h with h1 h2 h3 hc h4 hc2 h5
    · simp only [Prod.mk.injEq, Option.some.injEq] at h
      obtain ⟨rfl, rfl⟩ := h
      simp [utf8EncodeChar_length_one b h1]
    · simp at h
    · simp only [Prod.mk.injEq, Option.some.injEq] at h
      obtain ⟨rfl, rfl⟩ := h
      have := utf8EncodeChar_length_two_byte (by omega) h3 hc
      simp only [List.length_cons, List.length_nil]
      omega
    · simp at h
    · simp only [Prod.mk.injEq, Option.some.injEq] at h
      obtain ⟨rfl, rfl⟩ := h
      rw [Bool.and_eq_true] at hc2
      have := utf8EncodeChar_length_three_byte (by omega) h4 hc2.1 hc2.2
      simp only [List.length_cons, List.length_nil]
      omega
    all_goals simp at h
  | b1 :: b2 :: b3 :: rest3 =>
    simp only [utf8DecodeStep] at h
    split_ifs at h with h1 h2 h3 hc h4 hc2 h5 hc3
    · simp only [Prod.mk.injEq, Option.some.injEq] at h
      obtain ⟨rfl, rfl⟩ := h
      simp [utf8EncodeChar_length_one b h1]
    · simp at h
    · simp only [Prod.mk.injEq, Option.some.injEq] at h
      obtain ⟨rfl, rfl⟩ := h
      have := utf8EncodeChar_length_two_byte (by omega) h3 hc
      simp only [List.length_cons]
      omega
    · simp at h
    · simp only [Prod.mk.injEq, Option.some.injEq] at h
      obtain ⟨rfl, rfl⟩ := h
      rw [Bool.and_eq_true] at hc2
      have := utf8EncodeChar_length_three_byte (by omega) h4 hc2.1 hc2.2
      simp only [List.length_cons]
      omega
    · simp at h
    · simp only [Prod.mk.injEq, Option.some.injEq] at h
      obtain ⟨rfl, rfl⟩ := h
      have := utf8EncodeChar_length_le_four
        ((b - 0xF0) * 262144 + (b1 - 0x80) * 4096 + (b2 - 0x80) * 64 + (b3 - 0x80))
      simp only [List.length_cons]
      omega
    all_goals simp at h

lemma utf8Len_decodeGo_le (fuel : Nat) : ∀ bs : List Nat,
    utf8Len (decodeUtf8Go fuel bs) ≤ bs.length := by
  induction fuel with
  | zero =>
    intro bs
    cases bs <;> simp [decodeUtf8Go, utf8Len_nil]
  | succ fuel ih =>
    intro bs
    cases bs with
    | nil => simp [decodeUtf8Go, utf8Len_nil]
    | cons b rest =>
      simp only [decodeUtf8Go]
      rcases hstep : utf8DecodeStep b rest with ⟨e, rest'⟩
      cases e with
      | none =>
        have hlen := utf8DecodeStep_none_length hstep
        have := ih rest'
        dsimp only
        simp only [List.nil_append, List.length_cons]
        omega
      | some c =>
        have hlen := utf8DecodeStep_some_length hstep
        have := ih rest'
        dsimp only
        simp only [List.singleton_append, List.length_cons, utf8Len_cons]
        omega

/-- Byte-length bound of lenient decoding: the decoded text re-encodes to at
most as many bytes as were decoded. -/
lemma utf8Len_decode_le (bs : List Nat) : utf8Len (decodeUtf8Ignore bs) ≤ bs.length :=
  utf8Len_decodeGo_le bs.length bs

lemma decodeGo_encodeChar (fuel : Nat) (c : Nat) (tail : List Nat) (hv : ValidScalar c) :
    decodeUtf8Go (fuel + 1) (utf8EncodeChar c ++ tail) = c :: decodeUtf8Go fuel tail := by
  obtain ⟨hlt, hsurr⟩ := hv
  by_cases hA : c < 0x80
  · simp only [utf8EncodeChar, if_pos hA, List.cons_append, List.nil_append,
      decodeUtf8Go, utf8DecodeStep]
  · by_cases hB : c < 0x800
    · simp only [utf8EncodeChar, if_neg hA, if_pos hB, List.cons_append, List.nil_append,
        decodeUtf8Go, utf8DecodeStep]
      rw [if_neg (by omega), if_neg (by omega), if_pos (by omega)]
      rw [if_pos (by simp only [isCont, Bool.and_eq_true, decide_eq_true_eq]; omega)]
      have hval : (0xC0 + c / 64 - 0xC0) * 64 + (0x80 + c % 64 - 0x80) = c := by omega
      rw [hval]
      rfl
    · by_cases hC : c < 0x10000
      · simp only [utf8EncodeChar, if_neg hA, if_neg hB, if_pos hC, List.cons_append,
          List.nil_append, decodeUtf8Go, utf8DecodeStep]
        rw [if_neg (by omega), if_neg (by omega), if_neg (by omega), if_pos (by omega)]
        have hc3 : cont3ok (0xE0 + c / 4096) (0x80 + c / 64 % 64) = true := by
          unfold cont3ok
          split_ifs with g1 g2 <;>
            simp only [isCont, Bool.and_eq_true, decide_eq_true_eq] <;> omega
        rw [if_pos (by
          rw [Bool.and_eq_true, hc3]
          refine ⟨rfl, ?_⟩
          simp only [isCont, Bool.and_eq_true, decide_eq_true_eq]
          omega)]
        have hval : (0xE0 + c / 4096 - 0xE0) * 4096 + (0x80 + c / 64 % 64 - 0x80) * 64 +
            (0x80 + c % 64 - 0x80) = c := by omega
        rw [hval]
        rfl
      · simp only [utf8EncodeChar, if_neg hA, if_neg hB, if_neg hC, List.cons_append,
          List.nil_append, decodeUtf8Go, utf8DecodeStep]
        rw [if_neg (by omega), if_neg (by omega), if_neg (by omega), if_neg (by omega),
          if_pos (by omega)]
        have hc4 : cont4ok (0xF0 + c / 262144) (0x80 + c / 4096 % 64) = true := by
          unfold cont4ok
          split_ifs with g1 g2 <;>
            simp only [isCont, Bool.and_eq_true, decide_eq_true_eq] <;> omega
        rw [if_pos (by
          rw [Bool.and_eq_true, Bool.and_eq_true, hc4]
          refine ⟨⟨rfl, ?_⟩, ?_⟩ <;>
            (simp only [isCont, Bool.and_eq_true, decide_eq_true_eq]; omega))]
        have hval : (0xF0 + c / 262144 - 0xF0) * 262144 + (0x80 + c / 4096 % 64 - 0x80) * 4096 +
            (0x80 + c / 64 % 64 - 0x80) * 64 + (0x80 + c % 64 - 0x80) = c := by omega
        rw [hval]
        rfl

lemma decodeGo_conts (fuel : Nat) : ∀ bs : List Nat,
    (∀ x ∈ bs, 0x80 ≤ x ∧ x ≤ 0xBF) → decodeUtf8Go fuel bs = [] := by
  induction fuel with
  | zero =>
    intro bs hbs
    cases bs <;> simp [decodeUtf8Go]
  | succ fuel ih =>
    intro bs hbs
    cases bs with
    | nil => simp [decodeUtf8Go]
    | cons b rest =>
      have hb := hbs b (by simp)
      simp only [decodeUtf8Go, utf8DecodeStep]
      rw [if_neg (by omega), if_pos (by omega)]
      dsimp only
      exact ih rest (fun x hx => hbs x (by simp [hx]))

lemma decodeGo_lead_short (fuel : Nat) (b : Nat) (bs : List Nat)
    (hb2 : 0xC2 ≤ b) (hb5 : b < 0xF5)
    (hconts : ∀ x ∈ bs, 0x80 ≤ x ∧ x ≤ 0xBF)
    (hshort : bs.length + 1 < if b < 0xE0 then 2 else if b < 0xF0 then 3 else 4) :
    decodeUtf8Go fuel (b :: bs) = [] := by
  cases fuel with
  | zero => simp [decodeUtf8Go]
  | succ fuel =>
    by_cases h2 : b < 0xE0
    · rw [if_pos h2] at hshort
      have hnil : bs = [] := by
        cases bs with
        | nil => rfl
        | cons x t => exact absurd hshort (by simp)
      subst hnil
      simp only [decodeUtf8Go, utf8DecodeStep]
      rw [if_neg (by omega), if_neg (by omega), if_pos h2]
      simp [decodeUtf8Go]
    · by_cases h3 : b < 0xF0
      · rw [if_neg h2, if_pos h3] at hshort
        match bs, hshort with
        | [], _ =>
          simp only [decodeUtf8Go, utf8DecodeStep]
          rw [if_neg (by omega), if_neg (by omega), if_neg h2, if_pos h3]
          simp [decodeUtf8Go]
        | [b1], _ =>
          simp only [decodeUtf8Go, utf8DecodeStep]
          rw [if_neg (by omega), if_neg (by omega), if_neg h2, if_pos h3]
          dsimp only
          exact decodeGo_conts fuel [b1] hconts
      · rw [if_neg h2, if_neg h3] at hshort
        match bs, hshort with
        | [], _ =>
          simp only [decodeUtf8Go, utf8DecodeStep]
          rw [if_neg (by omega), if_neg (by omega), if_neg h2, if_neg h3, if_pos (by omega)]
          simp [decodeUtf8Go]
        | [b1], _ =>
          simp only [decodeUtf8Go, utf8DecodeStep]
          rw [if_neg (by omega), if_neg (by omega), if_neg h2, if_neg h3, if_pos (by omega)]
          dsimp only
          exact decodeGo_conts fuel [b1] hconts
        | [b1, b2], _ =>
          simp only [decodeUtf8Go, utf8DecodeStep]
          rw [if_neg (by omega), if_neg (by omega), if_neg h2, if_neg h3, if_pos (by omega)]
          dsimp only
          exact decodeGo_conts fuel [b1, b2] hconts

lemma decodeGo_encodeChar_cut (fuel n : Nat) (c : Nat) (hv : ValidScalar c)
    (hn : n < (utf8EncodeChar c).length) :
    decodeUtf8Go fuel ((utf8EncodeChar c).take n) = [] := by
  obtain ⟨hlt, hsurr⟩ := hv
  by_cases hA : c < 0x80
  · rw [utf8EncodeChar_length_one c hA] at hn
    interval_cases n
    simp [decodeUtf8Go]
  · by_cases hB : c < 0x800
    · simp only [utf8EncodeChar, if_neg hA, if_pos hB] at hn ⊢
      simp only [List.length_cons, List.length_nil] at hn
      interval_cases n
      · simp [decodeUtf8Go]
      · simp only [List.take_succ_cons, List.take_zero]
        exact decodeGo_lead_short fuel _ [] (by omega) (by omega) (by simp)
          (by rw [if_pos (by omega)]; simp)
    · by_cases hC : c < 0x10000
      · simp only [utf8EncodeChar, if_neg hA, if_neg hB, if_pos hC] at hn ⊢
        simp only [List.length_cons, List.length_nil] at hn
        interval_cases n
        · simp [decodeUtf8Go]
        · simp only [List.take_succ_cons, List.take_zero]
          exact decodeGo_lead_short fuel _ [] (by omega) (by omega) (by simp)
            (by rw [if_neg (by omega), if_pos (by omega)]; simp)
        · simp only [List.take_succ_cons, List.take_zero]
          exact decodeGo_lead_short fuel _ [0x80 + c / 64 % 64] (by omega) (by omega)
            (by intro x hx; simp at hx; omega)
            (by rw [if_neg (by omega), if_pos (by omega)]; simp)
      · simp only [utf8EncodeChar, if_neg hA, if_neg hB, if_neg hC] at hn ⊢
        simp only [List.length_cons, List.length_nil] at hn
        interval_cases n
        · simp [decodeUtf8Go]
        · simp only [List.take_succ_cons, List.take_zero]
          exact decodeGo_lead_short fuel _ [] (by omega) (by omega) (by simp)
            (by rw [if_neg (by omega), if_neg (by omega)]; simp)
        · simp only [List.take_succ_cons, List.take_zero]
          exact decodeGo_lead_short fuel _ [0x80 + c / 4096 % 64] (by omega) (by omega)
            (by intro x hx; simp at hx; omega)
            (by rw [if_neg (by omega), if_neg (by omega)]; simp)
        · simp only [List.take_succ_cons, List.take_zero]
          exact decodeGo_lead_short fuel _ [0x80 + c / 4096 % 64, 0x80 + c / 64 % 64]
            (by omega) (by omega)
            (by intro x hx; simp at hx; rcases hx with h | h <;> omega)
            (by rw [if_neg (by omega), if_neg (by omega)]; simp)

lemma decodeGo_take_encode (s : Str) (hv : ∀ c ∈ s, ValidScalar c) :
    ∀ n fuel, ((encodeUtf8 s).take n).length ≤ fuel →
      decodeUtf8Go fuel ((encodeUtf8 s).take n) <+: s := by
  induction s with
  | nil =>
    intro n fuel hfuel
    simp only [encodeUtf8, List.map_nil, List.join_nil, List.take_nil]
    cases fuel <;> simp [decodeUtf8Go]
  | cons c s ih =>
    intro n fuel hfuel
    rw [encodeUtf8_cons, List.take_append_eq_append_take] at hfuel ⊢
    by_cases hk : (utf8EncodeChar c).length ≤ n
    · rw [List.take_of_length_le hk] at hfuel ⊢
      have hpos := utf8EncodeChar_length_pos c
      obtain ⟨fuel', rfl⟩ : ∃ f, fuel = f + 1 := by
        cases fuel with
        | zero =>
          exfalso
          rw [List.length_append] at hfuel
          omega
        | succ f => exact ⟨f, rfl⟩
      rw [decodeGo_encodeChar fuel' c _ (hv c (by simp))]
      have hm : ((encodeUtf8 s).take (n - (utf8EncodeChar c).length)).length ≤ fuel' := by
        rw [List.length_append] at hfuel
        omega
      obtain ⟨t, ht⟩ := ih (fun x hx => hv x (by simp [hx])) (n - (utf8EncodeChar c).length)
        fuel' hm
      exact ⟨t, by rw [List.cons_append, ht]⟩
    · push_neg at hk
      rw [Nat.sub_eq_zero_of_le (Nat.le_of_lt hk), List.take_zero, List.append_nil]
      rw [decodeGo_encodeChar_cut fuel n c (hv c (by simp)) hk]
      exact List.nil_prefix

/-- Lenient decoding of a byte-truncated UTF-8 encoding yields a prefix of
the original string of scalar values. -/
lemma decode_take_encode_isPrefix (s : Str) (hv : ∀ c ∈ s, ValidScalar c) (n : Nat) :
    decodeUtf8Ignore ((encodeUtf8 s).take n) <+: s :=
  decodeGo_take_encode s hv n _ (Nat.le_refl _)

lemma splitlinesAux_length_pos : ∀ (ds acc : List Nat) (flag : Bool),
    acc ≠ [] → 1 ≤ (splitlinesAux ds acc flag).length := by
  intro ds
  induction ds with
  | nil =>
    intro acc flag hacc
    simp [splitlinesAux, List.isEmpty_iff, hacc]
  | cons c rest ih =>
    intro acc flag hacc
    simp only [splitlinesAux]
    split_ifs with g1 g2 g3
    · exact ih acc false hacc
    · simp
    · simp
    · exact ih (c :: acc) false (by simp)

lemma splitlinesAux_append_le : ∀ (cs ds acc : List Nat) (flag : Bool),
    (splitlinesAux cs acc flag).length ≤ (splitlinesAux (cs ++ ds) acc flag).length := by
  intro cs
  induction cs with
  | nil =>
    intro ds acc flag
    rw [List.nil_append]
    by_cases hacc : acc = []
    · simp [splitlinesAux, hacc]
    · have h1 := splitlinesAux_length_pos ds acc flag hacc
      simp only [splitlinesAux, List.isEmpty_iff, if_neg hacc]
      simpa using h1
  | cons c rest ih =>
    intro ds acc flag
    simp only [List.cons_append, splitlinesAux]
    split_ifs with g1 g2 g3
    · exact ih ds acc false
    · simpa using Nat.succ_le_succ (ih ds [] true)
    · simpa using Nat.succ_le_succ (ih ds [] false)
    · exact ih ds (c :: acc) false

/-- Line-count monotonicity of Python splitlines under string prefixes. -/
lemma splitlinesPy_prefix_le {l1 l2 : List Nat} (h : l1 <+: l2) :
    (splitlinesPy l1).length ≤ (splitlinesPy l2).length := by
  obtain ⟨t, rfl⟩ := h
  exact splitlinesAux_append_le l1 t [] false

lemma splitlinesAux_no_break : ∀ (cs acc : List Nat) (flag : Bool),
    (∀ c ∈ acc, isLineBreak c = false) →
    ∀ l ∈ splitlinesAux cs acc flag, ∀ c ∈ l, isLineBreak c = false := by
  intro cs
  induction cs with
  | nil =>
    intro acc flag hacc l hl c hc
    simp only [splitlinesAux] at hl
    split_ifs at hl with g
    · simp at hl
    · simp only [List.mem_singleton] at hl
      subst hl
      exact hacc c (by simpa using hc)
  | cons x rest ih =>
    intro acc flag hacc l hl c hc
    simp only [splitlinesAux] at hl
    split_ifs at hl with g1 g2 g3
    · exact ih acc false hacc l hl c hc
    · rcases List.mem_cons.mp hl with h | h
      · subst h
        exact hacc c (by simpa using hc)
      · exact ih [] true (by simp) l h c hc
    · rcases List.mem_cons.mp hl with h | h
      · subst h
        exact hacc c (by simpa using hc)
      · exact ih [] false (by simp) l h c hc
    · refine ih (x :: acc) false ?_ l hl c hc
      intro y hy
      rcases List.mem_cons.mp hy with h | h
      · subst h
        cases he : isLineBreak y
        · rfl
        · exact absurd he g3
      · exact hacc y h

lemma splitlinesAux_mem : ∀ (cs acc : List Nat) (flag : Bool) (l : Str) (c : Nat),
    l ∈ splitlinesAux cs acc flag → c ∈ l → c ∈ cs ∨ c ∈ acc := by
  intro cs
  induction cs with
  | nil =>
    intro acc flag l c hl hc
    simp only [splitlinesAux] at hl
    split_ifs at hl with g
    · simp at hl
    · simp only [List.mem_singleton] at hl
      subst hl
      exact Or.inr (by simpa using hc)
  | cons x rest ih =>
    intro acc flag l c hl hc
    simp only [splitlinesAux] at hl
    split_ifs at hl with g1 g2 g3
    · rcases ih acc false l c hl hc with h | h
      · exact Or.inl (by simp [h])
      · exact Or.inr h
    · rcases List.mem_cons.mp hl with h | h
      · subst h
        exact Or.inr (by simpa using hc)
      · rcases ih [] true l c h hc with h' | h'
        · exact Or.inl (by simp [h'])
        · simp at h'
    · rcases List.mem_cons.mp hl with h | h
      · subst h
        exact Or.inr (by simpa using hc)
      · rcases ih [] false l c h hc with h' | h'
        · exact Or.inl (by simp [h'])
        · simp at h'
    · rcases ih (x :: acc) false l c hl hc with h | h
      · exact Or.inl (by simp [h])
      · rcases List.mem_cons.mp h with h' | h'
        · exact Or.inl (by simp [h'])
        · exact Or.inr h'

lemma splitlinesAux_all_no_break : ∀ (l acc : List Nat),
    (∀ c ∈ l, isLineBreak c = false) →
    splitlinesAux l acc false =
      if acc.reverse ++ l = [] then [] else [acc.reverse ++ l] := by
  intro l
  induction l with
  | nil =>
    intro acc h
    by_cases hacc : acc = [] <;>
      simp [splitlinesAux, hacc, List.isEmpty_iff]
  | cons x l ih =>
    intro acc h
    have hx : isLineBreak x = false := h x (by simp)
    have hx13 : ¬ x = 13 := by
      intro e
      subst e
      simp [isLineBreak] at hx
    simp only [splitlinesAux]
    rw [if_neg (by simp), if_neg hx13, if_neg (by simp [hx])]
    rw [ih (x :: acc) (fun c hc => h c (by simp [hc]))]
    have harr : (x :: acc).reverse ++ l = acc.reverse ++ (x :: l) := by
      simp
    rw [harr]

lemma splitlinesAux_append_break : ∀ (l acc tail : List Nat),
    (∀ c ∈ l, isLineBreak c = false) →
    splitlinesAux (l ++ 10 :: tail) acc false =
      (acc.reverse ++ l) :: splitlinesAux tail [] false := by
  intro l
  induction l with
  | nil =>
    intro acc tail h
    simp only [List.nil_append, splitlinesAux]
    rw [if_neg (by simp), if_neg (by simp), if_pos (by simp [isLineBreak])]
    simp
  | cons x l ih =>
    intro acc tail h
    have hx : isLineBreak x = false := h x (by simp)
    have hx13 : ¬ x = 13 := by
      intro e
      subst e
      simp [isLineBreak] at hx
    simp only [List.cons_append, splitlinesAux]
    rw [if_neg (by simp), if_neg hx13, if_neg (by simp [hx])]
    have hih := ih (x :: acc) tail (fun c hc => h c (by simp [hc]))
    have harr : (x :: acc).reverse ++ l = acc.reverse ++ (x :: l) := by
      simp
    rw [harr] at hih
    exact hih

lemma splitlinesPy_joinNL_le : ∀ ls : List Str,
    (∀ l ∈ ls, ∀ c ∈ l, isLineBreak c = false) →
    (splitlinesPy (joinNL ls)).length ≤ ls.length := by
  intro ls
  induction ls with
  | nil =>
    intro h
    simp [joinNL, splitlinesPy, splitlinesAux]
  | cons l ls ih =>
    intro h
    cases ls with
    | nil =>
      show (splitlinesAux (joinNL [l]) [] false).length ≤ 1
      rw [show joinNL [l] = l from rfl,
        splitlinesAux_all_no_break l [] (h l (by simp))]
      split_ifs <;> simp
    | cons l2 ls2 =>
      show (splitlinesAux (joinNL (l :: l2 :: ls2)) [] false).length ≤ (l :: l2 :: ls2).length
      rw [show joinNL (l :: l2 :: ls2) = l ++ 10 :: joinNL (l2 :: ls2) from rfl,
        splitlinesAux_append_break l [] _ (h l (by simp))]
      have hih := ih (fun l' hl' c hc => h l' (by simp [hl']) c hc)
      rw [splitlinesPy] at hih
      simpa using Nat.succ_le_succ hih

lemma mem_joinNL : ∀ (ls : List Str) (c : Nat),
    c ∈ joinNL ls → c = 10 ∨ ∃ l ∈ ls, c ∈ l := by
  intro ls
  induction ls with
  | nil =>
    intro c hc
    simp [joinNL] at hc
  | cons l ls ih =>
    intro c hc
    cases ls with
    | nil =>
      right
      exact ⟨l, by simp, by simpa [joinNL] using hc⟩
    | cons l2 ls2 =>
      rw [show joinNL (l :: l2 :: ls2) = l ++ 10 :: joinNL (l2 :: ls2) from rfl] at hc
      rcases List.mem_append.mp hc with h | h
      · exact Or.inr ⟨l, by simp, h⟩
      · rcases List.mem_cons.mp h with h' | h'
        · exact Or.inl h'
        · rcases ih c h' with h10 | ⟨l', hl', hc'⟩
          · exact Or.inl h10
          · exact Or.inr ⟨l', by simp [hl'], hc'⟩

lemma trimContent_eq (content : Str) :
    trimContent content =
      if MAX_SNIPPET_BYTES <
          utf8Len (joinNL ((splitlinesPy content).take SNIPPET_LINE_LIMIT)) then
        decodeUtf8Ignore
          ((encodeUtf8 (joinNL ((splitlinesPy content).take SNIPPET_LINE_LIMIT))).take
            MAX_SNIPPET_BYTES)
      else joinNL ((splitlinesPy content).take SNIPPET_LINE_LIMIT) := rfl

/-- C2: the snippet truncation of `fetch_file_snippet` first keeps only the
first 300 lines and then, if the remainder exceeds 20480 UTF-8 bytes, cuts
the byte sequence at 20480 with lenient decoding; the result always has at
most 300 lines and at most 20480 UTF-8 bytes. -/
theorem fetch_file_snippet_truncation_bounds (content : Str)
    (hv : ∀ c ∈ content, ValidScalar c) :
    (splitlinesPy (trimContent content)).length ≤ 300 ∧
    utf8Len (trimContent content) ≤ 20480 := by
  have hnb : ∀ l ∈ (splitlinesPy content).take SNIPPET_LINE_LIMIT,
      ∀ c ∈ l, isLineBreak c = false := by
    intro l hl c hc
    exact splitlinesAux_no_break content [] false (by simp) l
      (List.take_subset _ _ hl) c hc
  have hcount :
      (splitlinesPy (joinNL ((splitlinesPy content).take SNIPPET_LINE_LIMIT))).length ≤
        300 := by
    have h1 := splitlinesPy_joinNL_le _ hnb
    have h2 : ((splitlinesPy content).take SNIPPET_LINE_LIMIT).length ≤ 300 := by
      rw [List.length_take]
      exact Nat.min_le_left _ _
    omega
  have hvsnip : ∀ c ∈ joinNL ((splitlinesPy content).take SNIPPET_LINE_LIMIT),
      ValidScalar c := by
    intro c hc
    rcases mem_joinNL _ c hc with h10 | ⟨l, hl, hcl⟩
    · subst h10
      decide
    · rcases splitlinesAux_mem content [] false l c (List.take_subset _ _ hl) hcl with
        h | h
      · exact hv c h
      · simp at h
  rw [trimContent_eq]
  split_ifs with hover
  · constructor
    · have hpre := decode_take_encode_isPrefix _ hvsnip MAX_SNIPPET_BYTES
      exact Nat.le_trans (splitlinesPy_prefix_le hpre) hcount
    · have h1 := utf8Len_decode_le
        ((encodeUtf8 (joinNL ((splitlinesPy content).take SNIPPET_LINE_LIMIT))).take
          MAX_SNIPPET_BYTES)
      have h2 : ((encodeUtf8
          (joinNL ((splitlinesPy content).take SNIPPET_LINE_LIMIT))).take
            MAX_SNIPPET_BYTES).length ≤ MAX_SNIPPET_BYTES := by
        rw [List.length_take]
        exact Nat.min_le_left _ _
      have h3 : MAX_SNIPPET_BYTES = 20480 := rfl
      omega
  · refine ⟨hcount, ?_⟩
    have h3 : MAX_SNIPPET_BYTES = 20480 := rfl
    omega

/-- Witness for C2 at a concrete short snippet. -/
theorem fetch_file_snippet_truncation_bounds_witness :
    (∀ c ∈ str "hello\nworld\n", ValidScalar c) ∧
    (splitlinesPy (trimContent (str "hello\nworld\n"))).length ≤ 300 ∧
    utf8Len (trimContent (str "hello\nworld\n")) ≤ 20480 :=
  ⟨by decide, fetch_file_snippet_truncation_bounds (str "hello\nworld\n") (by decide)⟩

/-- Embedding of `fetch_file_snippet` (lines 96-114) given the HTTP status
and the delivered file text (the JSON/base64 decoding of the 200-response
body is abstracted into the delivered string): any non-200 status yields
the empty string, otherwise the truncated content. -/
def fetch_file_snippet (status : Nat) (content : Str) : Str :=
  if status ≠ 200 then [] else trimContent content

/-- Outcome of one per-file fetch as seen by the loop in
`generate_readme_from_repo` (lines 187-193): either the fetch raised an
exception, or it returned an HTTP response with a status and decoded text. -/
inductive FetchOutcome where
  | exn
  | resp (status : Nat) (content : Str)
deriving DecidableEq

/-- The per-file fetch loop of `generate_readme_from_repo` (lines 187-193):
on an exception the path is skipped (and logged), otherwise the snippet is
entered into the ordered mapping. -/
def fetchLoop (world : Str → FetchOutcome) : List Str → List (Str × Str)
  | [] => []
  | p :: rest =>
    match world p with
    | .exn => fetchLoop world rest
    | .resp st content => (p, fetch_file_snippet st content) :: fetchLoop world rest

/-- C10: a non-success HTTP status makes `fetch_file_snippet` return an
empty string that IS entered into the snippet mapping (so its manifest line
still appears), an exception during the fetch leaves the path out of the
mapping entirely (no manifest line), and in both cases the loop treats the
other paths independently (the batch never aborts). -/
theorem fetch_loop_failure_modes (world : Str → FetchOutcome) (p : Str) :
    (world p = .exn →
      fetchLoop world [p] = [] ∧ (fetchLoop world [p]).map manifestLine = []) ∧
    (∀ st c, st ≠ 200 → world p = .resp st c →
      fetchLoop world [p] = [(p, ([] : Str))] ∧
      (fetchLoop world [p]).map manifestLine = [manifestLine (p, ([] : Str))]) ∧
    (∀ paths1 paths2, fetchLoop world (paths1 ++ paths2) =
      fetchLoop world paths1 ++ fetchLoop world paths2) := by
  refine ⟨?_, ?_, ?_⟩
  · intro h
    simp [fetchLoop, h]
  · intro st c hst h
    simp [fetchLoop, h, fetch_file_snippet, hst]
  · intro paths1 paths2
    induction paths1 with
    | nil => simp [fetchLoop]
    | cons q rest ih =>
      simp only [List.cons_append, fetchLoop]
      cases world q <;> simp [ih]

/-- Fetch world for the C10 witness: path `a` raises, every other path gets
an HTTP 404. -/
def demoWorld : Str → FetchOutcome :=
  fun q => if q = str "a" then .exn else .resp 404 (str "x")

/-- Witness for C10 at a concrete world: the raising path is absent from the
mapping, the 404 path is present with an empty snippet. -/
theorem fetch_loop_failure_modes_witness :
    fetchLoop demoWorld [str "a"] = [] ∧
    fetchLoop demoWorld [str "b"] = [(str "b", ([] : Str))] :=
  ⟨((fetch_loop_failure_modes demoWorld (str "a")).1 (by decide)).1,
   ((fetch_loop_failure_modes demoWorld (str "b")).2.1 404 (str "x")
     (by decide) (by decide)).1⟩

/-- JSON values, as returned by `r.json()` for the completion API response
(numbers restricted to integers, which suffices for these claims). -/
inductive Json where
  | null
  | bool (b : Bool)
  | num (n : Int)
  | str (s : Str)
  | arr (xs : List Json)
  | obj (kvs : List (Str × Json))

/-- Python `d[k]` under `try`: a value for a dict with the key present,
`none` (a caught exception) otherwise. -/
def jGet : Json → Str → Option Json
  | .obj kvs, k => (kvs.find? (fun kv => kv.1 == k)).map Prod.snd
  | _, _ => none

/-- Python `x[i]` for an integer index under `try`: list indexing, or
1-character string indexing, `none` (a caught exception) otherwise. -/
def jIdx : Json → Nat → Option Json
  | .arr xs, i => xs.get? i
  | .str s, i => (s.get? i).map (fun c => Json.str [c])
  | _, _ => none

/-- The nested field access of `call_gemini` (line 174):
`data["candidates"][0]["content"]["parts"][0]["text"]`, with any failure
caught by the surrounding `try`. -/
def extractText (data : Json) : Option Json :=
  (jGet data (str "candidates")).bind fun c0 =>
  (jIdx c0 0).bind fun c1 =>
  (jGet c1 (str "content")).bind fun c2 =>
  (jGet c2 (str "parts")).bind fun c3 =>
  (jIdx c3 0).bind fun c4 =>
  jGet c4 (str "text")

/-- The fatal errors of the completion stage, under the names the spec gives
them (the source raises `RuntimeError` with a message for each). -/
inductive PipelineError where
  | MalformedResponse (payload : Json)
  | EmptyCompletion

/-- The extraction step of `call_gemini` (lines 172-176): return the nested
text on success, fail with `MalformedResponse` carrying the payload when the
nested fields are absent. -/
def call_gemini_extract (data : Json) : Except PipelineError Json :=
  match extractText data with
  | some t => .ok t
  | none => .error (.MalformedResponse data)

/-- Python falsiness (`if not readme:`) of a JSON-derived value. -/
def jsonFalsy : Json → Bool
  | .null => true
  | .bool b => !b
  | .num n => n == 0
  | .str s => s.isEmpty
  | .arr xs => xs.isEmpty
  | .obj kvs => kvs.isEmpty

/-- The output file write, modelled as a value: a run that fails never
produces one. -/
structure WrittenFile where
  path : Str
  content : Json

/-- The tail of `generate_readme_from_repo` (lines 197-204): extract the
completion text, fail with `EmptyCompletion` if it is falsy, and only then
write it to the output file (modelled as returning the written file). -/
def readme_tail (out : Str) (data : Json) : Except PipelineError WrittenFile :=
  match call_gemini_extract data with
  | .error e => .error e
  | .ok readme =>
    if jsonFalsy readme then .error .EmptyCompletion else .ok ⟨out, readme⟩

/-- C8: a completion response without the expected nested text field fails
the run with `MalformedResponse`, an empty extracted text fails it with
`EmptyCompletion`, and an output file is produced only when extraction
succeeded with non-empty text — so no file is written on either failure. -/
theorem completion_failure_no_write (out : Str) (data : Json) :
    (extractText data = none →
      readme_tail out data = .error (.MalformedResponse data)) ∧
    (∀ r, extractText data = some r → jsonFalsy r = true →
      readme_tail out data = .error .EmptyCompletion) ∧
    (∀ w, readme_tail out data = .ok w →
      ∃ r, extractText data = some r ∧ jsonFalsy r = false ∧ w = ⟨out, r⟩) := by
  refine ⟨?_, ?_, ?_⟩
  · intro h
    simp [readme_tail, call_gemini_extract, h]
  · intro r h hf
    simp [readme_tail, call_gemini_extract, h, hf]
  · intro w hw
    cases hext : extractText data with
    | none => simp [readme_tail, call_gemini_extract, hext] at hw
    | some r =>
      simp only [readme_tail, call_gemini_extract, hext] at hw
      cases hf : jsonFalsy r with
      | true => simp [hf] at hw
      | false =>
        simp only [hf, Bool.false_eq_true, if_false, Except.ok.injEq] at hw
        exact ⟨r, rfl, hf, hw.symm⟩

/-- A completion response whose nested text field is present but empty, for
the C8 witness. -/
def demoRespEmpty : Json :=
  .obj [(str "candidates",
    .arr [.obj [(str "content",
      .obj [(str "parts",
        .arr [.obj [(str "text", .str (str ""))]])])]])]

/-- Witness for C8: a payload with no candidates fails with
`MalformedResponse`; a payload whose text is the empty string fails with
`EmptyCompletion`; neither produces a written file. -/
theorem completion_failure_no_write_witness :
    readme_tail (str "README.md") (Json.obj []) =
      .error (.MalformedResponse (Json.obj [])) ∧
    readme_tail (str "README.md") demoRespEmpty = .error .EmptyCompletion :=
  ⟨(completion_failure_no_write (str "README.md") (Json.obj [])).1 rfl,
   (completion_failure_no_write (str "README.md") demoRespEmpty).2.1
     (Json.str []) rfl rfl⟩
